import Mathlib

/-!
Shallow embedding of the EEPROM_mgr library (EEPROM_mgr.h / EEPROM_mgr.cpp).

The EEPROM is modelled as a function `Nat → Nat` from byte addresses to byte
values, together with a trace of the write operations that were issued
(address/value pairs, in order).  The registry's static state
(`nextaddr`, `list`, `signature`) becomes the structure `MgrState`; each
`EEPROM_mgr` item becomes an `Item` carrying its pointer identity `id`, its
`m_addr`, `m_size` and its in-memory data buffer.  The 16-bit `word`
arithmetic of the signature is modelled with `% 65536`.
-/

/-- The EEPROM contents: a byte value for every address. -/
abbrev EEPROM : Type := Nat → Nat

/-- An EEPROM together with the trace of writes issued so far
(address, value) in order. -/
structure Tr where
  mem : EEPROM
  writes : List (Nat × Nat)

/-- `eeprom_write_byte(dst, b)`: write one byte, recording the write. -/
def eeprom_write_byte (t : Tr) (a v : Nat) : Tr :=
  { mem := fun x => if x = a then v else t.mem x
    writes := t.writes ++ [(a, v)] }

/-- `eeprom_write_block(src, dst, len)`: write `dat` byte by byte starting
at address `a`. -/
def eeprom_write_block : Tr → Nat → List Nat → Tr
  | t, _, [] => t
  | t, a, v :: rest => eeprom_write_block (eeprom_write_byte t a v) (a + 1) rest

/-- The address/value pairs that a block write starting at `a` issues. -/
def blockWrites : Nat → List Nat → List (Nat × Nat)
  | _, [] => []
  | a, v :: rest => (a, v) :: blockWrites (a + 1) rest

/-- `eeprom_read_block(dst, src, len)`: the `n` bytes starting at `a`. -/
def eeprom_read_block (e : EEPROM) (a n : Nat) : List Nat :=
  (List.range n).map (fun j => e (a + j))

/-- `eeprom_verify_block(ram_data, eeprom_data, size)`: compare the RAM
buffer with the EEPROM contents byte by byte, stopping at the first
mismatch. -/
def eeprom_verify_block : List Nat → EEPROM → Nat → Bool
  | [], _, _ => true
  | v :: rest, e, a => if e a = v then eeprom_verify_block rest e (a + 1) else false

/-- One `EEPROM_mgr` item: pointer identity `id`, `m_addr`, `m_size` and the
in-memory data buffer that `Data()` points to. -/
structure Item where
  id : Nat
  addr : Nat
  size : Nat
  data : List Nat
  deriving DecidableEq, Repr

/-- The static state of the `EEPROM_mgr` class: `nextaddr`, the linked
`list` (head first) and the `signature`. -/
structure MgrState where
  nextaddr : Nat
  list : List Item
  signature : Nat
  deriving DecidableEq, Repr

/-- The initial static state: `nextaddr = 0`, empty list, `signature = 0`. -/
def initState : MgrState := { nextaddr := 0, list := [], signature := 0 }

/-- The constructor `EEPROM_mgr::EEPROM_mgr(size)`: the item records
`m_addr = nextaddr` and `m_size = size`; if the list is not finalized
(`signature == 0`) and `size` is nonzero, `nextaddr` advances and the item
is linked at the head of the list, otherwise `m_size` is forced to 0 and
the state is untouched.  `id` models the object's address (pointer
identity), `dat` the contents of the item's data buffer. -/
def registerItem (s : MgrState) (id size : Nat) (dat : List Nat) : MgrState × Item :=
  let it : Item := { id := id, addr := s.nextaddr, size := size, data := dat }
  if s.signature = 0 ∧ size ≠ 0 then
    ({ s with nextaddr := s.nextaddr + size, list := it :: s.list }, it)
  else
    (s, { it with size := 0 })

/-- Register a sequence of items of the given sizes (fresh ids from `i`,
zero-filled data buffers of matching length).  Returns the final state and
the created items in registration order. -/
def registerSeq : MgrState → List Nat → Nat → MgrState × List Item
  | s, [], _ => (s, [])
  | s, sz :: rest, i =>
    let r1 := registerItem s i sz (List.replicate sz 0)
    let r2 := registerSeq r1.1 rest (i + 1)
    (r2.1, r1.2 :: r2.2)

/-- Removal of an item from the linked list, as done by the destructor
`EEPROM_mgr::~EEPROM_mgr`: if the head is the item, drop the head,
otherwise the predecessor scan unlinks the first occurrence. -/
def unlink : List Item → Nat → List Item
  | [], _ => []
  | h :: rest, i => if h.id = i then rest else h :: unlink rest i

/-- The destructor `EEPROM_mgr::~EEPROM_mgr`: if `m_size` is nonzero the
item is unlinked from the list and the signature is invalidated;
otherwise nothing happens. -/
def destroyItem (s : MgrState) (it : Item) : MgrState :=
  if it.size ≠ 0 then
    { s with list := unlink s.list it.id, signature := 0 }
  else
    s

/-- `EEPROM_mgr::_Store`: write the item's buffer (`m_size` bytes from
`Data()`) to EEPROM at `m_addr`, but only if `m_size` is nonzero. -/
def itemStoreRaw (it : Item) (t : Tr) : Tr :=
  if it.size ≠ 0 then eeprom_write_block t it.addr (it.data.take it.size) else t

/-- `EEPROM_mgr::_Retrieve`: load `m_size` bytes from EEPROM at `m_addr`
into the item's buffer, but only if `m_size` is nonzero. -/
def itemRetrieveRaw (it : Item) (e : EEPROM) : Item :=
  if it.size ≠ 0 then { it with data := eeprom_read_block e it.addr it.size } else it

/-- `EEPROM_mgr::_Verify`: an item without size is always marked as
non-matching; otherwise compare the buffer against the EEPROM. -/
def itemVerifyRaw (it : Item) (e : EEPROM) : Bool :=
  if it.size ≠ 0 then eeprom_verify_block (it.data.take it.size) e it.addr else false

/-- Public `EEPROM_mgr::Store`: gated by `signature != 0`. -/
def itemStore (sig : Nat) (it : Item) (t : Tr) : Tr :=
  if sig ≠ 0 then itemStoreRaw it t else t

/-- Public `EEPROM_mgr::Retrieve`: gated by `signature != 0`. -/
def itemRetrieve (sig : Nat) (it : Item) (e : EEPROM) : Item :=
  if sig ≠ 0 then itemRetrieveRaw it e else it

/-- Public `EEPROM_mgr::Verify`: gated by `signature != 0`. -/
def itemVerify (sig : Nat) (it : Item) (e : EEPROM) : Bool :=
  if sig ≠ 0 then itemVerifyRaw it e else false

/-- The two bytes of the 16-bit `word signature` as laid out in memory on
the (little-endian) AVR target. -/
def sigBytes (sig : Nat) : List Nat := [sig % 256, sig / 256 % 256]

/-- `EEPROM_mgr::VerifySignature`: false if the list has not been
finalized, otherwise compare the signature bytes at `nextaddr` against
the computed signature. -/
def VerifySignature (s : MgrState) (e : EEPROM) : Bool :=
  if s.signature ≠ 0 then eeprom_verify_block (sigBytes s.signature) e s.nextaddr else false

/-- The loop `for (cur = list; cur; cur = cur->m_next) cur->_Store()` in
`EEPROM_mgr::StoreAll`. -/
def storeItems : List Item → Tr → Tr
  | [], t => t
  | it :: rest, t => storeItems rest (itemStoreRaw it t)

/-- `EEPROM_mgr::StoreAll(forcewritesig)`: no-op unless `nextaddr` and
`signature` are both nonzero; store every item, then write the signature
bytes at `nextaddr` unless they already match and the write is not
forced. -/
def StoreAll (s : MgrState) (t : Tr) (forcewritesig : Bool) : Tr :=
  if s.nextaddr ≠ 0 ∧ s.signature ≠ 0 then
    let t1 := storeItems s.list t
    if forcewritesig || !(VerifySignature s t1.mem) then
      eeprom_write_block t1 s.nextaddr (sigBytes s.signature)
    else t1
  else t

/-- `EEPROM_mgr::RetrieveAll`: no-op returning false unless `nextaddr` and
`signature` are nonzero; verify the stored signature and, only if it
matches, load every item's buffer from the EEPROM. -/
def RetrieveAll (s : MgrState) (e : EEPROM) : Bool × MgrState :=
  if s.nextaddr ≠ 0 ∧ s.signature ≠ 0 then
    let result := VerifySignature s e
    if result then
      (true, { s with list := s.list.map (fun it => itemRetrieveRaw it e) })
    else (false, s)
  else (false, s)

/-- The signature loop of `EEPROM_mgr::Begin`:
`signature = ((signature << 1) ^ cur->m_size) ^ (!(signature & 0x8000))`
over 16-bit words, followed by `if (!signature) signature++`. -/
def signatureLoop : Nat → List Item → Nat
  | sig, [] => sig
  | sig, it :: rest =>
    let s1 := (((sig <<< 1) ^^^ it.size) ^^^ (if sig &&& 0x8000 = 0 then 1 else 0)) % 65536
    let s2 := if s1 = 0 then s1 + 1 else s1
    signatureLoop s2 rest

/-- The loop in `EEPROM_mgr::Begin` that wipes unused areas:
starting at address `u`, for `fuel` consecutive addresses, write `0xFF`
to every byte that does not already hold `0xFF`. -/
def wipeFrom : Tr → Nat → Nat → Tr
  | t, _, 0 => t
  | t, u, fuel + 1 =>
    let t1 := if t.mem u ≠ 255 then eeprom_write_byte t u 255 else t
    wipeFrom t1 (u + 1) fuel

/-- `EEPROM_mgr::Begin(storeifinvalid, storealways, wipeunusedareas,
retrieveifvalid)`: recompute the signature from the list, and if it is
nonzero check the stored signature; depending on the options either store
everything (and possibly wipe the unused area up to `E2END`) or retrieve
everything.  Returns the verification result, the new static state, and
the resulting EEPROM with its write trace. -/
def Begin (s : MgrState) (t : Tr) (E2END : Nat)
    (storeifinvalid storealways wipeunusedareas retrieveifvalid : Bool) :
    Bool × MgrState × Tr :=
  let sig := signatureLoop 0 s.list
  let s1 := { s with signature := sig }
  if sig ≠ 0 then
    let result := VerifySignature s1 t.mem
    if storealways || (!result && storeifinvalid) then
      let t1 := StoreAll s1 t true
      let t2 := if wipeunusedareas then
          wipeFrom t1 (s1.nextaddr + 2) (E2END + 1 - (s1.nextaddr + 2))
        else t1
      (result, s1, t2)
    else if retrieveifvalid && result then
      (result, (RetrieveAll s1 t.mem).2, t)
    else
      (result, s1, t)
  else
    (false, s1, t)

/-- Well-formedness of a registry layout: every linked item has a nonzero
size, a buffer of exactly that size, and lies entirely below
`nextaddr`. -/
def ItemsWF (s : MgrState) : Prop :=
  ∀ it ∈ s.list, it.data.length = it.size ∧ it.size ≠ 0 ∧ it.addr + it.size ≤ s.nextaddr

/-- The signature fold step exactly as the specification words it:
`((signature << 1) XOR size) XOR (1 if the high bit of the old signature
is 0, else 0)` over 16-bit words, then a running value of 0 becomes 1. -/
def specSigStep (sig size : Nat) : Nat :=
  let v := (((sig <<< 1) ^^^ size) ^^^ (if sig / 32768 % 2 = 0 then 1 else 0)) % 65536
  if v = 0 then 1 else v

/-- Offsets as the specification describes them: the `i`-th registered
item sits at the sum of the sizes of all previously registered items. -/
def prefixSums (sizes : List Nat) : List Nat :=
  (List.range sizes.length).map (fun i => ((sizes.take i).sum))

/-- Helper: the addresses produced by registering `sizes` starting at
`base`. -/
def specAddrs : Nat → List Nat → List Nat
  | _, [] => []
  | base, sz :: rest => base :: specAddrs (base + sz) rest

/-- A fresh all-zero EEPROM with an empty write trace. -/
def zeroTr : Tr := { mem := fun _ => 0, writes := [] }

theorem retrieveAll_signature (s : MgrState) (e : EEPROM) :
    (RetrieveAll s e).2.signature = s.signature := by
  simp only [RetrieveAll]
  split
  · split <;> rfl
  · rfl

theorem begin_signature (s : MgrState) (t : Tr) (E2 : Nat) (a b c d : Bool) :
    (Begin s t E2 a b c d).2.1.signature = signatureLoop 0 s.list := by
  simp only [Begin]
  split
  · split
    · rfl
    · split
      · exact retrieveAll_signature _ _
      · rfl
  · rfl

theorem highBit_if (sig : Nat) :
    (if sig &&& 32768 = 0 then (1 : Nat) else 0) =
      if sig / 32768 % 2 = 0 then 1 else 0 := by
  have h1 : sig &&& 32768 = (sig.testBit 15).toNat * 32768 := by
    have h := Nat.and_two_pow sig 15
    norm_num at h
    exact h
  have h2 : sig.testBit 15 = decide (sig / 32768 % 2 = 1) := by
    have h := Nat.testBit_to_div_mod (x := sig) (i := 15)
    norm_num at h
    exact h
  by_cases hb : sig / 32768 % 2 = 0
  · have hf : sig.testBit 15 = false := by rw [h2]; simp [hb]
    rw [h1, hf]
    simp [hb]
  · have h3 : sig / 32768 % 2 = 1 := by omega
    have ht : sig.testBit 15 = true := by rw [h2]; simp [h3]
    rw [h1, ht]
    simp [hb]

theorem signatureLoop_eq_fold (l : List Item) (sig : Nat) :
    signatureLoop sig l = List.foldl specSigStep sig (l.map Item.size) := by
  induction l generalizing sig with
  | nil => rfl
  | cons it rest ih =>
    have hstep :
        (if ((((sig <<< 1) ^^^ it.size) ^^^ (if sig &&& 0x8000 = 0 then 1 else 0)) % 65536) = 0
          then ((((sig <<< 1) ^^^ it.size) ^^^ (if sig &&& 0x8000 = 0 then 1 else 0)) % 65536) + 1
          else ((((sig <<< 1) ^^^ it.size) ^^^ (if sig &&& 0x8000 = 0 then 1 else 0)) % 65536)) =
        specSigStep sig it.size := by
      rw [highBit_if]
      simp only [specSigStep]
      by_cases hz :
          ((((sig <<< 1) ^^^ it.size) ^^^ (if sig / 32768 % 2 = 0 then 1 else 0)) % 65536) = 0
      · simp [hz]
      · simp [hz]
    simp only [signatureLoop, List.map_cons, List.foldl_cons]
    rw [hstep, ih]

/-- Claim C1: `Begin` computes the signature by folding over the registry's
linked items in the list's current order, starting from 0, where each step
updates signature to `((signature << 1) XOR item.size) XOR (1 if the high bit
of the old signature is 0, else 0)` over 16-bit words, and after each step a
running value of 0 is incremented to 1. -/
theorem c1_signature_fold (s : MgrState) (t : Tr) (E2 : Nat) (a b c d : Bool) :
    (Begin s t E2 a b c d).2.1.signature =
      List.foldl specSigStep 0 (s.list.map Item.size) := by
  rw [begin_signature, signatureLoop_eq_fold]

/-- Claim C2 counterexample: the signature computed by `Begin` for a registry
with one item of size 4 is EQUAL to the signature computed for a registry
with two items of sizes 2 and 2 (both are 5), refuting the claim that they
differ. -/
theorem c2_counterexample :
    (Begin (registerSeq initState [4] 0).1 zeroTr 100 true false true true).2.1.signature =
      (Begin (registerSeq initState [2, 2] 0).1 zeroTr 100 true false true true).2.1.signature := by
  rfl

/-- Claim C2 (amended): the signature computed by `Begin` for a registry with
one item of size 4 and the one for a registry with two items of sizes 2 and 2
are both 5: this particular pair is a signature collision. -/
theorem c2_amended_collision :
    (Begin (registerSeq initState [4] 0).1 zeroTr 100 true false true true).2.1.signature = 5 ∧
    (Begin (registerSeq initState [2, 2] 0).1 zeroTr 100 true false true true).2.1.signature = 5 :=
  ⟨rfl, rfl⟩

/-- Claim C9: an item created after finalization (`signature ≠ 0`), or with
requested size 0, has its size forced to 0, is never linked (the registry
state is unchanged), and `Verify` on it returns false for every signature
state and every EEPROM contents; `Store` and `Retrieve` on it are no-ops. -/
theorem c9_late_or_empty_registration (s : MgrState) (id sz : Nat) (dat : List Nat)
    (h : s.signature ≠ 0 ∨ sz = 0) :
    (registerItem s id sz dat).2.size = 0 ∧
    (registerItem s id sz dat).1 = s ∧
    (∀ sig e, itemVerify sig (registerItem s id sz dat).2 e = false) ∧
    (∀ sig t, itemStore sig (registerItem s id sz dat).2 t = t) ∧
    (∀ sig e, itemRetrieve sig (registerItem s id sz dat).2 e = (registerItem s id sz dat).2) := by
  have hcond : ¬ (s.signature = 0 ∧ sz ≠ 0) := by tauto
  refine ⟨?_, ?_, ?_, ?_, ?_⟩
  · simp [registerItem, hcond]
  · simp [registerItem, hcond]
  · intro sig e
    simp [registerItem, hcond, itemVerify, itemVerifyRaw]
  · intro sig t
    simp [registerItem, hcond, itemStore, itemStoreRaw]
  · intro sig e
    simp [registerItem, hcond, itemRetrieve, itemRetrieveRaw]

/-- Claim C9 witness: a concrete item registered on a finalized registry. -/
theorem c9_witness :
    (({ nextaddr := 0, list := [], signature := 1 } : MgrState).signature ≠ 0 ∨ (4 : Nat) = 0) ∧
    (∀ sig e, itemVerify sig
      (registerItem ({ nextaddr := 0, list := [], signature := 1 } : MgrState) 7 4 [0, 0, 0, 0]).2 e = false) :=
  ⟨Or.inl (by decide),
    (c9_late_or_empty_registration ({ nextaddr := 0, list := [], signature := 1 } : MgrState)
      7 4 [0, 0, 0, 0] (Or.inl (by decide))).2.2.1⟩

/-- Claim C10: destroying an item that was never linked (its size is 0)
leaves the entire registry state unchanged; in particular the signature is
not reset to 0. -/
theorem c10_destroy_unlinked (s : MgrState) (it : Item) (h : it.size = 0) :
    destroyItem s it = s := by
  simp [destroyItem, h]

/-- Claim C10 witness: a concrete size-0 item destroyed on a concrete
registry state. -/
theorem c10_witness :
    (Item.size ⟨3, 5, 0, []⟩ = 0) ∧
    destroyItem ({ nextaddr := 9, list := [], signature := 42 } : MgrState) ⟨3, 5, 0, []⟩ =
      ({ nextaddr := 9, list := [], signature := 42 } : MgrState) :=
  ⟨rfl, c10_destroy_unlinked ({ nextaddr := 9, list := [], signature := 42 } : MgrState) ⟨3, 5, 0, []⟩ rfl⟩


theorem registerSeq_spec (sizes : List Nat) :
    ∀ (s : MgrState) (i : Nat), s.signature = 0 →
    ((registerSeq s sizes i).2.map Item.addr = specAddrs s.nextaddr sizes) ∧
    ((registerSeq s sizes i).2.map Item.size = sizes) ∧
    ((registerSeq s sizes i).1.nextaddr = s.nextaddr + sizes.sum) ∧
    ((registerSeq s sizes i).1.signature = 0) ∧
    ((∀ sz ∈ sizes, 0 < sz) →
      (registerSeq s sizes i).1.list = (registerSeq s sizes i).2.reverse ++ s.list) := by
  induction sizes with
  | nil =>
    intro s i h
    simp [registerSeq, specAddrs, h]
  | cons sz rest ih =>
    intro s i h
    by_cases hsz : sz = 0
    · subst hsz
      have hreg : registerItem s i 0 (List.replicate 0 0) =
          (s, ⟨i, s.nextaddr, 0, []⟩) := by
        simp [registerItem]
      have hrec := ih s (i + 1) h
      refine ⟨?_, ?_, ?_, ?_, ?_⟩
      · simp only [registerSeq, hreg, List.map_cons]
        rw [hrec.1]
        simp [specAddrs]
      · simp only [registerSeq, hreg, List.map_cons]
        rw [hrec.2.1]
      · simp only [registerSeq, hreg]
        rw [hrec.2.2.1]
        simp
      · simp only [registerSeq, hreg]
        exact hrec.2.2.2.1
      · intro hpos
        exact absurd (hpos 0 (by simp)) (by simp)
    · have hcond : s.signature = 0 ∧ sz ≠ 0 := ⟨h, hsz⟩
      have hreg : registerItem s i sz (List.replicate sz 0) =
          (⟨s.nextaddr + sz, ⟨i, s.nextaddr, sz, List.replicate sz 0⟩ :: s.list, s.signature⟩,
            ⟨i, s.nextaddr, sz, List.replicate sz 0⟩) := by
        simp [registerItem, hcond]
      have hrec := ih ⟨s.nextaddr + sz, ⟨i, s.nextaddr, sz, List.replicate sz 0⟩ :: s.list, s.signature⟩
        (i + 1) h
      refine ⟨?_, ?_, ?_, ?_, ?_⟩
      · simp only [registerSeq, hreg, List.map_cons]
        rw [hrec.1]
        simp [specAddrs]
      · simp only [registerSeq, hreg, List.map_cons]
        rw [hrec.2.1]
      · simp only [registerSeq, hreg]
        rw [hrec.2.2.1]
        simp
        omega
      · simp only [registerSeq, hreg]
        exact hrec.2.2.2.1
      · intro hpos
        have hpos' : ∀ x ∈ rest, 0 < x := fun x hx => hpos x (List.mem_cons_of_mem _ hx)
        simp only [registerSeq, hreg, List.reverse_cons]
        rw [hrec.2.2.2.2 hpos']
        simp

theorem specAddrs_eq_map (sizes : List Nat) :
    ∀ base : Nat, specAddrs base sizes =
      (List.range sizes.length).map (fun i => base + (sizes.take i).sum) := by
  induction sizes with
  | nil => intro base; simp [specAddrs]
  | cons sz rest ih =>
    intro base
    simp only [specAddrs, List.length_cons, List.range_succ_eq_map, List.map_cons,
      List.map_map]
    congr 1
    rw [ih (base + sz)]
    apply List.map_congr_left
    intro i _
    simp [List.take_succ_cons, Nat.add_assoc]

theorem le_of_mem_specAddrs (sizes : List Nat) :
    ∀ base x, x ∈ specAddrs base sizes → base ≤ x := by
  induction sizes with
  | nil => intro base x hx; simp [specAddrs] at hx
  | cons sz rest ih =>
    intro base x hx
    simp only [specAddrs, List.mem_cons] at hx
    rcases hx with hx | hx
    · omega
    · have := ih (base + sz) x hx
      omega

theorem specAddrs_pairwise_lt (sizes : List Nat) :
    ∀ base, (∀ sz ∈ sizes, 0 < sz) →
      List.Pairwise (· < ·) (specAddrs base sizes) := by
  induction sizes with
  | nil => intro base _; simp [specAddrs]
  | cons sz rest ih =>
    intro base hpos
    have hsz : 0 < sz := hpos sz (by simp)
    have hpos' : ∀ x ∈ rest, 0 < x := fun x hx => hpos x (List.mem_cons_of_mem _ hx)
    simp only [specAddrs, List.pairwise_cons]
    constructor
    · intro x hx
      have := le_of_mem_specAddrs rest (base + sz) x hx
      omega
    · exact ih (base + sz) hpos'

theorem mapRange_getD (n : Nat) (f : Nat → Nat) (i : Nat) (hi : i < n) :
    ((List.range n).map f).getD i 0 = f i := by
  rw [List.getD_eq_getElem?_getD, List.getElem?_map, List.getElem?_range hi]
  rfl

/-- Claim C3 counterexample: after registering items of sizes 1 then 2,
iterating the registry's collection from its head visits addresses
`[1, 0]` — the reverse of registration order `[0, 1]` and not an
increasing address order. -/
theorem c3_counterexample :
    (registerSeq initState [1, 2] 0).1.list.map Item.addr = [1, 0] ∧
    (registerSeq initState [1, 2] 0).2.map Item.addr = [0, 1] ∧
    ¬ List.Pairwise (· < ·) ((registerSeq initState [1, 2] 0).1.list.map Item.addr) := by
  decide

/-- Claim C3 (amended): for every sequence of positive-size registrations
before finalization, the registry's collection holds the items in REVERSE
registration order: iterating from its head visits items in the reverse of
the order they registered, i.e. in decreasing address order. -/
theorem c3_amended_reverse_order (sizes : List Nat) (hpos : ∀ sz ∈ sizes, 0 < sz) :
    (registerSeq initState sizes 0).1.list = (registerSeq initState sizes 0).2.reverse ∧
    List.Pairwise (· > ·) ((registerSeq initState sizes 0).1.list.map Item.addr) := by
  have h := registerSeq_spec sizes initState 0 rfl
  have hlist : (registerSeq initState sizes 0).1.list =
      (registerSeq initState sizes 0).2.reverse := by
    rw [h.2.2.2.2 hpos]
    simp [initState]
  refine ⟨hlist, ?_⟩
  rw [hlist, List.map_reverse, List.pairwise_reverse, h.1]
  exact specAddrs_pairwise_lt sizes initState.nextaddr hpos

/-- Claim C3 witness: amended claim applied to the concrete sizes 1, 2. -/
theorem c3_witness :
    (∀ sz ∈ [1, 2], 0 < sz) ∧
    List.Pairwise (· > ·) ((registerSeq initState [1, 2] 0).1.list.map Item.addr) :=
  ⟨by decide, (c3_amended_reverse_order [1, 2] (by decide)).2⟩

/-- Claim C6: for every sequence of registrations before finalization, each
item's assigned address equals the sum of the sizes of all previously
registered items; the item sizes are recorded as requested; offsets are
contiguous in registration order, and when all sizes are positive the
assigned offsets are strictly increasing (hence non-overlapping). -/
theorem c6_offsets_prefix_sum (sizes : List Nat) :
    ((registerSeq initState sizes 0).2.map Item.addr =
      (List.range sizes.length).map (fun i => (sizes.take i).sum)) ∧
    ((registerSeq initState sizes 0).2.map Item.size = sizes) ∧
    (∀ i, i + 1 < sizes.length →
      ((registerSeq initState sizes 0).2.map Item.addr).getD (i + 1) 0 =
        ((registerSeq initState sizes 0).2.map Item.addr).getD i 0 + sizes.getD i 0) ∧
    ((∀ sz ∈ sizes, 0 < sz) →
      List.Pairwise (· < ·) ((registerSeq initState sizes 0).2.map Item.addr)) := by
  have h := registerSeq_spec sizes initState 0 rfl
  have haddr : (registerSeq initState sizes 0).2.map Item.addr =
      (List.range sizes.length).map (fun i => (sizes.take i).sum) := by
    rw [h.1, specAddrs_eq_map]
    simp [initState]
  refine ⟨haddr, h.2.1, ?_, ?_⟩
  · intro i hi
    have hii : i < sizes.length := by omega
    rw [haddr, mapRange_getD _ _ _ hi, mapRange_getD _ _ _ (by omega : i < sizes.length)]
    rw [List.sum_take_succ sizes i hii]
    have : sizes.getD i 0 = sizes[i] := List.getD_eq_getElem sizes 0 hii
    omega
  · intro hpos
    rw [h.1]
    exact specAddrs_pairwise_lt sizes initState.nextaddr hpos

/-- Claim C6 witness: concrete registration sequence with sizes 1, 2, 3. -/
theorem c6_witness :
    ((0 : Nat) + 1 < ([1, 2, 3] : List Nat).length ∧ (∀ sz ∈ [1, 2, 3], 0 < sz)) ∧
    ((registerSeq initState [1, 2, 3] 0).2.map Item.addr).getD 1 0 =
      ((registerSeq initState [1, 2, 3] 0).2.map Item.addr).getD 0 0 +
        ([1, 2, 3] : List Nat).getD 0 0 ∧
    List.Pairwise (· < ·) ((registerSeq initState [1, 2, 3] 0).2.map Item.addr) :=
  ⟨⟨by decide, by decide⟩,
    (c6_offsets_prefix_sum [1, 2, 3]).2.2.1 0 (by decide),
    (c6_offsets_prefix_sum [1, 2, 3]).2.2.2 (by decide)⟩

/-- Claim C4: `Begin`'s return value always equals whether the signature
bytes already present in the store at `nextaddr` matched the freshly
computed signature, regardless of the option flags and of which of the
optional store/wipe/retrieve actions was taken; if the computed signature
is 0 (empty registry) it returns false and leaves the store untouched
(no write is issued and the contents are unchanged). -/
theorem c4_begin_result (s : MgrState) (t : Tr) (E2 : Nat) (siv sa wua riv : Bool) :
    (signatureLoop 0 s.list ≠ 0 →
      (Begin s t E2 siv sa wua riv).1 =
        eeprom_verify_block (sigBytes (signatureLoop 0 s.list)) t.mem s.nextaddr) ∧
    (signatureLoop 0 s.list = 0 →
      (Begin s t E2 siv sa wua riv).1 = false ∧
      (Begin s t E2 siv sa wua riv).2.2 = t) := by
  constructor
  · intro hsig
    simp only [Begin]
    rw [if_pos hsig]
    split
    · simp [VerifySignature, hsig]
    · split
      · simp [VerifySignature, hsig]
      · simp [VerifySignature, hsig]
  · intro hsig
    simp only [Begin]
    rw [if_neg (fun h => h hsig)]
    exact ⟨rfl, rfl⟩

/-- Claim C4 witness: the empty registry returns false and touches
nothing; a one-item registry returns the result of the byte comparison at
`nextaddr`. -/
theorem c4_witness :
    ((Begin initState zeroTr 10 true false true true).1 = false ∧
      (Begin initState zeroTr 10 true false true true).2.2 = zeroTr) ∧
    (Begin (registerSeq initState [1] 0).1 zeroTr 10 true false true true).1 =
      eeprom_verify_block (sigBytes (signatureLoop 0 (registerSeq initState [1] 0).1.list))
        zeroTr.mem (registerSeq initState [1] 0).1.nextaddr :=
  ⟨(c4_begin_result initState zeroTr 10 true false true true).2 rfl,
    (c4_begin_result (registerSeq initState [1] 0).1 zeroTr 10 true false true true).1 (by decide)⟩

/-- Claim C5: `RetrieveAll` is all-or-nothing: it returns true exactly when
the registry is nonempty, finalized, and the single signature check before
the loop succeeds; when it returns false nothing is loaded (the state is
unchanged), and when it returns true every linked item's buffer is loaded
from the store at its offset (identity, address and size preserved). -/
theorem c5_retrieveAll_all_or_nothing (s : MgrState) (e : EEPROM) :
    ((RetrieveAll s e).1 = true ↔
      s.nextaddr ≠ 0 ∧ s.signature ≠ 0 ∧ VerifySignature s e = true) ∧
    ((RetrieveAll s e).1 = false → (RetrieveAll s e).2 = s) ∧
    ((RetrieveAll s e).1 = true →
      ((RetrieveAll s e).2.list.map (fun it => (it.id, it.addr, it.size)) =
        s.list.map (fun it => (it.id, it.addr, it.size))) ∧
      (∀ it ∈ (RetrieveAll s e).2.list, it.size ≠ 0 →
        it.data = eeprom_read_block e it.addr it.size)) := by
  by_cases hg : s.nextaddr ≠ 0 ∧ s.signature ≠ 0
  · by_cases hv : VerifySignature s e = true
    · have hr : RetrieveAll s e =
          (true, { s with list := s.list.map (fun it => itemRetrieveRaw it e) }) := by
        simp [RetrieveAll, hg, hv]
      rw [hr]
      refine ⟨by simp [hg, hv], by simp, fun _ => ⟨?_, ?_⟩⟩
      · simp only [List.map_map]
        apply List.map_congr_left
        intro it _
        simp only [Function.comp_apply, itemRetrieveRaw]
        split <;> rfl
      · intro it hit hsz
        simp only [List.mem_map] at hit
        obtain ⟨it0, _, heq⟩ := hit
        subst heq
        by_cases h0 : it0.size = 0
        · simp [itemRetrieveRaw, h0] at hsz
        · simp [itemRetrieveRaw, h0]
    · have hr : RetrieveAll s e = (false, s) := by
        simp [RetrieveAll, hg, hv]
      rw [hr]
      refine ⟨by simp [hv], fun _ => rfl, by simp⟩
  · have hr : RetrieveAll s e = (false, s) := by
      simp only [RetrieveAll]
      rw [if_neg hg]
    rw [hr]
    refine ⟨⟨fun hc => absurd hc (by simp), fun hc => absurd ⟨hc.1, hc.2.1⟩ hg⟩,
      fun _ => rfl, by simp⟩

/-- Claim C5 witness: a concrete matching store is fully retrieved. -/
theorem c5_witness :
    ((RetrieveAll ({ nextaddr := 2, list := [⟨0, 0, 2, [7, 8]⟩], signature := 771 } : MgrState)
        (fun _ => 3)).1 = true) ∧
    (∀ it ∈ (RetrieveAll ({ nextaddr := 2, list := [⟨0, 0, 2, [7, 8]⟩], signature := 771 } : MgrState)
        (fun _ => 3)).2.list, it.size ≠ 0 →
      it.data = eeprom_read_block (fun _ => 3) it.addr it.size) :=
  ⟨by decide,
    ((c5_retrieveAll_all_or_nothing
      ({ nextaddr := 2, list := [⟨0, 0, 2, [7, 8]⟩], signature := 771 } : MgrState)
      (fun _ => 3)).2.2 (by decide)).2⟩

theorem ewb_mem_ne (t : Tr) (a v x : Nat) (h : x ≠ a) :
    (eeprom_write_byte t a v).mem x = t.mem x := by
  simp [eeprom_write_byte, h]

theorem eeprom_write_block_mem_out (l : List Nat) :
    ∀ (t : Tr) (a x : Nat), (x < a ∨ a + l.length ≤ x) →
      (eeprom_write_block t a l).mem x = t.mem x := by
  induction l with
  | nil => intro t a x _; rfl
  | cons v rest ih =>
    intro t a x hx
    rw [List.length_cons] at hx
    simp only [eeprom_write_block]
    rw [ih (eeprom_write_byte t a v) (a + 1) x (by omega)]
    exact ewb_mem_ne t a v x (by omega)

theorem eeprom_write_block_writes (l : List Nat) :
    ∀ (t : Tr) (a : Nat),
      (eeprom_write_block t a l).writes = t.writes ++ blockWrites a l := by
  induction l with
  | nil => intro t a; simp [eeprom_write_block, blockWrites]
  | cons v rest ih =>
    intro t a
    simp only [eeprom_write_block, blockWrites]
    rw [ih]
    simp [eeprom_write_byte]

theorem blockWrites_mem (l : List Nat) :
    ∀ (a j : Nat), j < l.length → (a + j, l.getD j 0) ∈ blockWrites a l := by
  induction l with
  | nil => intro a j hj; simp at hj
  | cons v rest ih =>
    intro a j hj
    cases j with
    | zero => simp [blockWrites]
    | succ j' =>
      rw [List.length_cons] at hj
      have hmem := ih (a + 1) j' (by omega)
      simp only [blockWrites, List.mem_cons]
      right
      have harr : a + (j' + 1) = (a + 1) + j' := by omega
      rw [harr]
      simpa using hmem

theorem blockWrites_bound (l : List Nat) :
    ∀ (a : Nat) (p : Nat × Nat), p ∈ blockWrites a l →
      a ≤ p.1 ∧ p.1 < a + l.length := by
  induction l with
  | nil => intro a p hp; simp [blockWrites] at hp
  | cons v rest ih =>
    intro a p hp
    simp only [blockWrites, List.mem_cons] at hp
    rw [List.length_cons]
    rcases hp with rfl | hp
    · simp
    · have := ih (a + 1) p hp
      omega

theorem storeItems_mem_out (items : List Item) :
    ∀ (t : Tr) (N x : Nat), (∀ it ∈ items, it.addr + it.size ≤ N) → N ≤ x →
      (storeItems items t).mem x = t.mem x := by
  induction items with
  | nil => intro t N x _ _; rfl
  | cons it rest ih =>
    intro t N x hb hx
    simp only [storeItems]
    rw [ih (itemStoreRaw it t) N x (fun i hi => hb i (List.mem_cons_of_mem _ hi)) hx]
    unfold itemStoreRaw
    split
    · apply eeprom_write_block_mem_out
      right
      have hb1 := hb it (List.mem_cons_self _ _)
      have h2 : (it.data.take it.size).length ≤ it.size := by
        rw [List.length_take]
        exact Nat.min_le_left _ _
      omega
    · rfl

theorem storeItems_writes_sub (items : List Item) :
    ∀ (t : Tr) (p : Nat × Nat), p ∈ (storeItems items t).writes →
      p ∈ t.writes ∨ ∃ it ∈ items, it.addr ≤ p.1 ∧ p.1 < it.addr + it.size := by
  induction items with
  | nil => intro t p hp; exact Or.inl hp
  | cons it rest ih =>
    intro t p hp
    simp only [storeItems] at hp
    rcases ih (itemStoreRaw it t) p hp with hp1 | ⟨i, hi, hlo, hhi⟩
    · unfold itemStoreRaw at hp1
      by_cases hsz : it.size ≠ 0
      · rw [if_pos hsz, eeprom_write_block_writes] at hp1
        rcases List.mem_append.mp hp1 with h | h
        · exact Or.inl h
        · have hb := blockWrites_bound _ _ _ h
          right
          refine ⟨it, List.mem_cons_self _ _, hb.1, ?_⟩
          have h2 : (it.data.take it.size).length ≤ it.size := by
            rw [List.length_take]
            exact Nat.min_le_left _ _
          omega
      · rw [if_neg hsz] at hp1
        exact Or.inl hp1
    · exact Or.inr ⟨i, List.mem_cons_of_mem _ hi, hlo, hhi⟩

theorem storeItems_writes_mono (items : List Item) :
    ∀ (t : Tr) (p : Nat × Nat), p ∈ t.writes → p ∈ (storeItems items t).writes := by
  induction items with
  | nil => intro t p hp; exact hp
  | cons it rest ih =>
    intro t p hp
    simp only [storeItems]
    apply ih
    unfold itemStoreRaw
    split
    · rw [eeprom_write_block_writes]
      exact List.mem_append.mpr (Or.inl hp)
    · exact hp

theorem storeItems_writes_item (items : List Item) :
    ∀ (t : Tr) (it : Item), it ∈ items → it.data.length = it.size → ∀ j, j < it.size →
      (it.addr + j, it.data.getD j 0) ∈ (storeItems items t).writes := by
  induction items with
  | nil => intro t it hit; simp at hit
  | cons i0 rest ih =>
    intro t it hit hlen j hj
    rcases List.mem_cons.mp hit with rfl | hit'
    · simp only [storeItems]
      apply storeItems_writes_mono
      unfold itemStoreRaw
      rw [if_pos (by omega : it.size ≠ 0)]
      rw [eeprom_write_block_writes]
      apply List.mem_append.mpr
      right
      have htake : it.data.take it.size = it.data := by
        rw [← hlen]
        exact List.take_length _
      rw [htake]
      exact blockWrites_mem it.data it.addr j (by rw [hlen]; exact hj)
    · simp only [storeItems]
      exact ih _ it hit' hlen j hj

/-- Claim C7: `StoreAll` leaves the store completely unchanged when the
registry is empty or unfinalized (`nextaddr = 0` or `signature = 0`);
otherwise it issues a write of every linked item's buffer byte to its
offset, and it writes the signature bytes at `nextaddr` exactly when
`forcewritesig` is set or the signature bytes stored after the item writes
do not already match. -/
theorem c7_storeAll (s : MgrState) (t : Tr) (f : Bool)
    (hwf : ItemsWF s) (htw : t.writes = []) :
    ((s.nextaddr = 0 ∨ s.signature = 0) → StoreAll s t f = t) ∧
    (s.nextaddr ≠ 0 → s.signature ≠ 0 →
      (∀ it ∈ s.list, ∀ j, j < it.size →
        (it.addr + j, it.data.getD j 0) ∈ (StoreAll s t f).writes) ∧
      ((s.nextaddr, s.signature % 256) ∈ (StoreAll s t f).writes ↔
        (f = true ∨ VerifySignature s (storeItems s.list t).mem = false))) := by
  constructor
  · intro h
    have hng : ¬ (s.nextaddr ≠ 0 ∧ s.signature ≠ 0) := by tauto
    simp only [StoreAll]
    rw [if_neg hng]
  · intro hna hsig
    have hg : s.nextaddr ≠ 0 ∧ s.signature ≠ 0 := ⟨hna, hsig⟩
    simp only [StoreAll]
    rw [if_pos hg]
    split
    next hcond =>
      constructor
      · intro it hit j hj
        rw [eeprom_write_block_writes]
        exact List.mem_append.mpr
          (Or.inl (storeItems_writes_item s.list t it hit (hwf it hit).1 j hj))
      · constructor
        · intro _
          rcases Bool.or_eq_true_iff.mp hcond with hf | hv
          · exact Or.inl hf
          · right
            simpa using hv
        · intro _
          rw [eeprom_write_block_writes]
          refine List.mem_append.mpr (Or.inr ?_)
          simp [sigBytes, blockWrites]
    next hcond =>
      have hfv : f = false ∧ VerifySignature s (storeItems s.list t).mem = true := by
        constructor
        · cases hf : f
          · rfl
          · rw [hf] at hcond
            exact absurd (by simp) hcond
        · cases hv : VerifySignature s (storeItems s.list t).mem
          · rw [hv] at hcond
            exact absurd (by simp) hcond
          · rfl
      constructor
      · intro it hit j hj
        exact storeItems_writes_item s.list t it hit (hwf it hit).1 j hj
      · constructor
        · intro hmem
          rcases storeItems_writes_sub s.list t _ hmem with h1 | ⟨it, hit, hlo, hhi⟩
          · rw [htw] at h1
            simp at h1
          · have hb := (hwf it hit).2.2
            have hlo' : it.addr ≤ s.nextaddr := hlo
            have hhi' : s.nextaddr < it.addr + it.size := hhi
            omega
        · intro hrhs
          rcases hrhs with hf' | hv'
          · rw [hfv.1] at hf'
            exact Bool.noConfusion hf'
          · rw [hfv.2] at hv'
            exact Bool.noConfusion hv'

/-- Claim C7 witness: a concrete finalized one-item registry; the item's
byte is written by `StoreAll`. -/
theorem c7_witness :
    (ItemsWF ({ nextaddr := 1, list := [⟨0, 0, 1, [7]⟩], signature := 2 } : MgrState) ∧
      zeroTr.writes = [] ∧
      ({ nextaddr := 1, list := [⟨0, 0, 1, [7]⟩], signature := 2 } : MgrState).nextaddr ≠ 0) ∧
    ((0 + 0, 7) ∈ (StoreAll ({ nextaddr := 1, list := [⟨0, 0, 1, [7]⟩], signature := 2 } : MgrState)
      zeroTr true).writes) := by
  have hwf : ItemsWF ({ nextaddr := 1, list := [⟨0, 0, 1, [7]⟩], signature := 2 } : MgrState) := by
    intro it hit
    simp only [List.mem_singleton] at hit
    subst hit
    exact ⟨rfl, by decide, by decide⟩
  refine ⟨⟨hwf, rfl, by decide⟩, ?_⟩
  have h := (c7_storeAll ({ nextaddr := 1, list := [⟨0, 0, 1, [7]⟩], signature := 2 } : MgrState)
    zeroTr true hwf rfl).2 (by decide) (by decide)
  have hm := h.1 ⟨0, 0, 1, [7]⟩ (by decide) 0 (by decide)
  simpa using hm

theorem wipeFrom_mem_lt (fuel : Nat) :
    ∀ (t : Tr) (u x : Nat), x < u → (wipeFrom t u fuel).mem x = t.mem x := by
  induction fuel with
  | zero => intro t u x _; rfl
  | succ f ih =>
    intro t u x hx
    simp only [wipeFrom]
    rw [ih _ (u + 1) x (by omega)]
    split
    · exact ewb_mem_ne t u 255 x (by omega)
    · rfl

theorem wipeFrom_mem_zone (fuel : Nat) :
    ∀ (t : Tr) (u x : Nat), u ≤ x → x < u + fuel →
      (wipeFrom t u fuel).mem x = 255 := by
  induction fuel with
  | zero => intro t u x h1 h2; omega
  | succ f ih =>
    intro t u x h1 h2
    simp only [wipeFrom]
    rcases eq_or_ne x u with rfl | hne
    · rw [wipeFrom_mem_lt f _ (x + 1) x (by omega)]
      by_cases hc : t.mem x ≠ 255
      · rw [if_pos hc]
        simp [eeprom_write_byte]
      · rw [if_neg hc]
        exact of_not_not hc
    · exact ih _ (u + 1) x (by omega) (by omega)

theorem wipeFrom_writes_already (fuel : Nat) :
    ∀ (t : Tr) (u x v : Nat), t.mem x = 255 →
      (x, v) ∈ (wipeFrom t u fuel).writes → (x, v) ∈ t.writes := by
  induction fuel with
  | zero => intro t u x v _ hp; exact hp
  | succ f ih =>
    intro t u x v hmem hp
    simp only [wipeFrom] at hp
    rcases eq_or_ne x u with rfl | hne
    · rw [if_neg (by simp [hmem])] at hp
      exact ih t _ _ v hmem hp
    · by_cases hc : t.mem u ≠ 255
      · rw [if_pos hc] at hp
        have h1 := ih (eeprom_write_byte t u 255) (u + 1) x v
          (by simp [eeprom_write_byte, hne, hmem]) hp
        simp only [eeprom_write_byte] at h1
        rcases List.mem_append.mp h1 with h2 | h2
        · exact h2
        · simp at h2
          exact absurd h2.1 hne
      · rw [if_neg hc] at hp
        exact ih t (u + 1) x v hmem hp

/-- Claim C8: when `Begin` performs a store and `wipeunusedareas` is set,
every store byte from `nextaddr + 2` (the end of the signature region) up
to and including `E2END` afterwards holds `0xFF`, and no write operation is
issued at any such address already holding `0xFF`; when no store was
performed, the store is untouched. -/
theorem c8_wipe_unused (s : MgrState) (t : Tr) (E2 : Nat)
    (hwf : ItemsWF s) (hna : s.nextaddr ≠ 0) (htw : t.writes = [])
    (hsig : signatureLoop 0 s.list ≠ 0) :
    (∀ siv sa riv : Bool,
      (sa = true ∨ (siv = true ∧
        VerifySignature { s with signature := signatureLoop 0 s.list } t.mem = false)) →
      (∀ a, s.nextaddr + 2 ≤ a → a ≤ E2 →
        (Begin s t E2 siv sa true riv).2.2.mem a = 255) ∧
      (∀ a v, s.nextaddr + 2 ≤ a → a ≤ E2 → t.mem a = 255 →
        (a, v) ∉ (Begin s t E2 siv sa true riv).2.2.writes)) ∧
    (∀ siv sa wua riv : Bool, sa = false →
      (siv = false ∨ VerifySignature { s with signature := signatureLoop 0 s.list } t.mem = true) →
      (Begin s t E2 siv sa wua riv).2.2 = t) := by
  have hsa : StoreAll { s with signature := signatureLoop 0 s.list } t true =
      eeprom_write_block (storeItems s.list t) s.nextaddr
        (sigBytes (signatureLoop 0 s.list)) := by
    simp only [StoreAll]
    rw [if_pos ⟨hna, hsig⟩]
    rw [if_pos (by simp)]
  have hmem_out : ∀ a, s.nextaddr + 2 ≤ a →
      (StoreAll { s with signature := signatureLoop 0 s.list } t true).mem a = t.mem a := by
    intro a ha
    rw [hsa]
    rw [eeprom_write_block_mem_out _ _ _ _ (Or.inr (by simp [sigBytes]; omega))]
    exact storeItems_mem_out s.list t s.nextaddr a (fun it hit => (hwf it hit).2.2) (by omega)
  have hwrites_out : ∀ a v, s.nextaddr + 2 ≤ a →
      (a, v) ∉ (StoreAll { s with signature := signatureLoop 0 s.list } t true).writes := by
    intro a v ha hmem
    rw [hsa, eeprom_write_block_writes] at hmem
    rcases List.mem_append.mp hmem with h1 | h1
    · rcases storeItems_writes_sub s.list t _ h1 with h2 | ⟨it, hit, hlo, hhi⟩
      · rw [htw] at h2
        simp at h2
      · have hb := (hwf it hit).2.2
        have hlo' : it.addr ≤ a := hlo
        have hhi' : a < it.addr + it.size := hhi
        omega
    · have hb := blockWrites_bound _ _ _ h1
      have hb2 : a < s.nextaddr + (sigBytes (signatureLoop 0 s.list)).length := hb.2
      simp [sigBytes] at hb2
      omega
  constructor
  · intro siv sa riv hstore
    have hcond : (sa || (!(VerifySignature { s with signature := signatureLoop 0 s.list } t.mem)
        && siv)) = true := by
      rcases hstore with h | ⟨h1, h2⟩
      · rw [h]
        simp
      · rw [h1, h2]
        simp
    have hbegin : (Begin s t E2 siv sa true riv).2.2 =
        wipeFrom (StoreAll { s with signature := signatureLoop 0 s.list } t true)
          (s.nextaddr + 2) (E2 + 1 - (s.nextaddr + 2)) := by
      simp only [Begin]
      rw [if_pos hsig, if_pos hcond]
      simp
    rw [hbegin]
    constructor
    · intro a ha1 ha2
      exact wipeFrom_mem_zone _ _ _ _ ha1 (by omega)
    · intro a v ha1 ha2 hold hmem
      have ht1mem : (StoreAll { s with signature := signatureLoop 0 s.list } t true).mem a = 255 := by
        rw [hmem_out a ha1]
        exact hold
      exact hwrites_out a v ha1 (wipeFrom_writes_already _ _ _ _ _ ht1mem hmem)
  · intro siv sa wua riv hsaf hres
    have hcond : (sa || (!(VerifySignature { s with signature := signatureLoop 0 s.list } t.mem)
        && siv)) = false := by
      rcases hres with h | h
      · rw [hsaf, h]
        simp
      · rw [hsaf, h]
        simp
    simp only [Begin]
    rw [if_pos hsig, if_neg (by simp [hcond])]
    split
    · rfl
    · rfl

/-- Claim C8 witness: a concrete one-item registry stored on an all-zero
EEPROM of last address 4; afterwards address 3 holds `0xFF`. -/
theorem c8_witness :
    (ItemsWF ({ nextaddr := 1, list := [⟨0, 0, 1, [7]⟩], signature := 0 } : MgrState) ∧
      signatureLoop 0 [⟨0, 0, 1, [7]⟩] ≠ 0) ∧
    (Begin ({ nextaddr := 1, list := [⟨0, 0, 1, [7]⟩], signature := 0 } : MgrState) zeroTr 4
      true true true true).2.2.mem 3 = 255 := by
  have hwf : ItemsWF ({ nextaddr := 1, list := [⟨0, 0, 1, [7]⟩], signature := 0 } : MgrState) := by
    intro it hit
    simp only [List.mem_singleton] at hit
    subst hit
    exact ⟨rfl, by decide, by decide⟩
  exact ⟨⟨hwf, by decide⟩,
    ((c8_wipe_unused ({ nextaddr := 1, list := [⟨0, 0, 1, [7]⟩], signature := 0 } : MgrState)
      zeroTr 4 hwf (by decide) rfl (by decide)).1 true true true (Or.inl rfl)).1 3
      (by decide) (by decide)⟩
